import Mathlib

/-!
Shallow embedding of the pthread mutex-reduction exercises (max-norm,
Frobenius norm, per-element dot product, block dot product).

Numbers are modelled by `ℚ` (exact real-number semantics of the C doubles),
matrices by row-major `List (List ℚ)` together with the dimensions `m`, `n`
that the C code passes alongside the pointer.  Each parallel reduction is
modelled by a left fold of its mutex-protected combine step over a list
`order : List Nat` of worker indices: `order` ranging over the permutations
of `List.range workers` captures every order in which the workers can
perform their critical sections.
-/

/-- Unchecked vector read `a[i]` (out of range reads default to 0; the C code
never checks). -/
def vget (a : List ℚ) (i : Nat) : ℚ := (a[i]?).getD 0

/-- Unchecked matrix read `A[i][j]`. -/
def mget (A : List (List ℚ)) (i j : Nat) : ℚ := (((A[i]?).getD [])[j]?).getD 0

/-- Checked matrix read `A[i][j]`, `none` when out of bounds. -/
def mgetOpt (A : List (List ℚ)) (i j : Nat) : Option ℚ :=
  (A[i]?).bind fun r => r[j]?

/-- Checked vector read. -/
def vgetOpt (a : List ℚ) (i : Nat) : Option ℚ := a[i]?

/-- The list `A` really is an `m × n` matrix. -/
def MatrixWF (m n : Nat) (A : List (List ℚ)) : Prop :=
  A.length = m ∧ ∀ r ∈ A, r.length = n

/-- The list of all `|A[i][j]|` for `i < m`, `j < n` (the entries the spec's
"maximum of the absolute values over all entries" ranges over). -/
def absEntries (m n : Nat) (A : List (List ℚ)) : List ℚ :=
  (List.range m).flatMap fun i => (List.range n).map fun j => |mget A i j|

/-- Specification-side value "the maximum of `|A[i][j]|` over all entries"
(for `m, n ≥ 1` the seed `|A[0][0]|` is itself an entry, so this is the
maximum of `absEntries`). -/
def maxAbsSpec (m n : Nat) (A : List (List ℚ)) : ℚ :=
  (absEntries m n A).foldl Max.max |mget A 0 0|

/-- `isClose` from frobenius.c / the dot-product programs:
`fabs(a - b) < threshold`, strict. -/
def isClose (a b threshold : ℚ) : Bool := |a - b| < threshold

/-- Modelled from the spec: `dotprod_ref` is declared in the dot-product
sources but its definition is in a missing separate file; per the spec it is
the identical fold computed single-threaded over the full buffer in one
pass, `Σ a[i]*b[i]` for `i < n`. -/
def dotprod_ref (n : Nat) (a b : List ℚ) : ℚ :=
  (List.range n).foldl (fun acc i => acc + vget a i * vget b i) 0

/-- `initArray` (dot-product programs): the C function uses a `static double
elem` counter that persists across calls, so it is modelled as a function of
the incoming counter value, returning the filled array and the counter value
left behind for the next call (`a[i] = elem; elem += 1.`). -/
def initArray (elem : ℚ) (n : Nat) : List ℚ × ℚ :=
  ((List.range n).map fun i => elem + i, elem + n)

namespace MaxC

/-- Worker body of `compute_row_max` (max.c): `local_max = fabs(A[row][0])`,
then for `j` in `[1, n)` replace `local_max` by `fabs(A[row][j])` whenever
the latter is larger. -/
def compute_row_max_loc (n : Nat) (A : List (List ℚ)) (row : Nat) : ℚ :=
  (List.range' 1 (n - 1)).foldl
    (fun acc j => if |mget A row j| > acc then |mget A row j| else acc)
    |mget A row 0|

/-- Locked combine step of `compute_row_max`: the shared maximum is
overwritten only when the worker's local maximum strictly exceeds it. -/
def combine (shared loc : ℚ) : ℚ := if loc > shared then loc else shared

/-- Parallel `max` (max.c): shared `maxElem` starts at `A[0][0]`; one worker
per row; `order` is the order in which the workers execute their locked
combine steps. -/
def max (m n : Nat) (A : List (List ℚ)) (order : List Nat) : ℚ :=
  order.foldl (fun acc i => combine acc (compute_row_max_loc n A i)) (mget A 0 0)

/-- Sequential `max_ref` (max.c): `maxElem = A[0][0]`, then for each entry it
compares `fabs(A[i][j]) > maxElem` but assigns the raw `A[i][j]`
(the `fabs` is missing from the assignment in the source). -/
def max_ref (m n : Nat) (A : List (List ℚ)) : ℚ :=
  (List.range m).foldl
    (fun acc i =>
      (List.range n).foldl
        (fun acc2 j => if |mget A i j| > acc2 then mget A i j else acc2) acc)
    (mget A 0 0)

/-- Comparison in max.c's `main`: `ref == res`, exact equality, no
tolerance. -/
def main_check (ref res : ℚ) : Bool := decide (ref = res)

/-- Tail of max.c's `main` after `ref` and `res` are computed: the printed
verdict line and the exit code (`return 0` is unconditional). -/
def main_tail (ref res : ℚ) : List String × Int :=
  (if main_check ref res then ["OK"]
   else ["ERROR: difference between ref and res is above threshold"], 0)

end MaxC

namespace FrobC

/-- Worker body of `compute_row_sum` (frobenius.c): `row_sum = 0`, then add
`A[row][j] * A[row][j]` for every `j < n`. -/
def compute_row_sum (n : Nat) (A : List (List ℚ)) (row : Nat) : ℚ :=
  (List.range n).foldl (fun acc j => acc + mget A row j * mget A row j) 0

/-- Accumulator of the parallel `frobenius` (frobenius.c) before the square
root: shared `frob` starts at 0; one worker per row adds its row sum under
the mutex, in the order given by `order`. -/
def frobenius_acc (m n : Nat) (A : List (List ℚ)) (order : List Nat) : ℚ :=
  order.foldl (fun acc i => acc + compute_row_sum n A i) 0

/-- Accumulator of the sequential `frobenius_ref` (frobenius.c) before the
square root: `frob = 0`, then the nested loops add every square. -/
def frobenius_ref_sum (m n : Nat) (A : List (List ℚ)) : ℚ :=
  (List.range m).foldl
    (fun acc i =>
      (List.range n).foldl (fun a2 j => a2 + mget A i j * mget A i j) acc)
    0

/-- Tolerance used by frobenius.c's `main`: `0.0001`. -/
def threshold : ℚ := 1 / 10000

/-- Tail of frobenius.c's `main`: verdict line and unconditional exit code
0. -/
def main_tail (ref res : ℚ) : List String × Int :=
  (if isClose ref res threshold then ["Résultat correct : OK"]
   else ["Erreur : différence entre les résultats supérieure au seuil"], 0)

end FrobC

namespace PairsC

/-- Worker body of `compute_product` (per-element dot product):
`a[index] * b[index]`. -/
def compute_product (a b : List ℚ) (i : Nat) : ℚ := vget a i * vget b i

/-- Parallel `dotprod_pairs`: shared `sum` starts at 0; one worker per
element index adds its product under the mutex, in the order given by
`order`. -/
def dotprod_pairs (n : Nat) (a b : List ℚ) (order : List Nat) : ℚ :=
  order.foldl (fun acc i => acc + compute_product a b i) 0

/-- Tolerance used by the per-element program's `main`: `0.0001`. -/
def threshold : ℚ := 1 / 10000

/-- Array `a` of the per-element program's `main`: `initArray` called with
the static counter at its initial value 0 (size `N = 10`). -/
def aMain : List ℚ := (initArray 0 10).1

/-- Array `b` of the per-element program's `main`: `initArray` called next,
with the counter left at 10 by the first call. -/
def bMain : List ℚ := (initArray (initArray 0 10).2 10).1

/-- Tail of the per-element program's `main`: verdict line and unconditional
exit code 0. -/
def main_tail (ref res : ℚ) : List String × Int :=
  (if isClose ref res threshold then ["Résultat correct : OK"]
   else ["Erreur : différence entre les résultats supérieure au seuil"], 0)

end PairsC

namespace BlocksC

/-- Worker body of `compute_block` (block dot product): `block_sum = 0`,
then add `a[i] * b[i]` for `i` in `[start, end)`. -/
def compute_block (a b : List ℚ) (s e : Nat) : ℚ :=
  (List.range' s (e - s)).foldl (fun acc i => acc + vget a i * vget b i) 0

/-- Parallel `dotprod_blocks`: `nb_threads = n / k` workers; worker `i`
covers `[i*k, (i+1)*k)`; shared `sum` starts at 0 and each worker adds its
block sum under the mutex, in the order given by `order`. -/
def dotprod_blocks (n k : Nat) (a b : List ℚ) (order : List Nat) : ℚ :=
  order.foldl (fun acc i => acc + compute_block a b (i * k) ((i + 1) * k)) 0

/-- Tolerance used by the block program's `main`: `0.0001`. -/
def threshold : ℚ := 1 / 10000

/-- Array `a` of the block program's `main`: `initArray` with the static
counter at 0 (size `N = 9`). -/
def aMain : List ℚ := (initArray 0 9).1

/-- Array `b` of the block program's `main`: `initArray` called next, with
the counter left at 9 by the first call. -/
def bMain : List ℚ := (initArray (initArray 0 9).2 9).1

/-- Tail of the block program's `main`: verdict line and unconditional exit
code 0. -/
def main_tail (ref res : ℚ) : List String × Int :=
  (if isClose ref res threshold then ["Résultat correct : OK"]
   else ["Erreur : différence entre les résultats supérieure au seuil"], 0)

end BlocksC

namespace Checked

/-- Bounds-checked `compute_row_max` worker body: every array read goes
through `mgetOpt`; any out-of-bounds read collapses the result to `none`. -/
def compute_row_max_loc (n : Nat) (A : List (List ℚ)) (row : Nat) : Option ℚ :=
  (List.range' 1 (n - 1)).foldl
    (fun acc j => acc.bind fun v =>
      (mgetOpt A row j).map fun x => if |x| > v then |x| else v)
    ((mgetOpt A row 0).map fun x => |x|)

/-- Bounds-checked `max_ref`. -/
def max_ref (m n : Nat) (A : List (List ℚ)) : Option ℚ :=
  (List.range m).foldl
    (fun acc i =>
      (List.range n).foldl
        (fun acc2 j => acc2.bind fun v =>
          (mgetOpt A i j).map fun x => if |x| > v then x else v) acc)
    (mgetOpt A 0 0)

/-- Bounds-checked `compute_row_sum` worker body. -/
def compute_row_sum (n : Nat) (A : List (List ℚ)) (row : Nat) : Option ℚ :=
  (List.range n).foldl
    (fun acc j => acc.bind fun v =>
      (mgetOpt A row j).map fun x => v + x * x)
    (some 0)

/-- Bounds-checked `compute_block` worker body. -/
def compute_block (a b : List ℚ) (s e : Nat) : Option ℚ :=
  (List.range' s (e - s)).foldl
    (fun acc i => acc.bind fun v =>
      (vgetOpt a i).bind fun x => (vgetOpt b i).map fun y => v + x * y)
    (some 0)

end Checked

/-! ### Generic fold lemmas -/

/-- The C update `if f i > acc then f i else acc`, folded over a list, is a
fold of `Max.max` over the mapped list. -/
theorem foldl_step_eq_max {α : Type} (l : List α) (f : α → ℚ) (x : ℚ) :
    l.foldl (fun acc i => if f i > acc then f i else acc) x
      = (l.map f).foldl Max.max x := by
  induction l generalizing x with
  | nil => rfl
  | cons a l ih =>
    simp only [List.foldl_cons, List.map_cons]
    rw [ih]
    congr 1
    rcases le_or_lt (f a) x with h | h
    · rw [if_neg (not_lt.mpr h), max_eq_left h]
    · rw [if_pos h, max_eq_right h.le]

/-- A fold of `Max.max` returns its seed or a list element. -/
theorem foldl_max_eq_init_or_mem (l : List ℚ) (x : ℚ) :
    l.foldl Max.max x = x ∨ l.foldl Max.max x ∈ l := by
  induction l generalizing x with
  | nil => exact Or.inl rfl
  | cons a l ih =>
    simp only [List.foldl_cons]
    rcases ih (Max.max x a) with h | h
    · rcases le_or_lt a x with h2 | h2
      · exact Or.inl (by rw [h, max_eq_left h2])
      · exact Or.inr (by rw [h, max_eq_right h2.le]; exact List.mem_cons_self a l)
    · exact Or.inr (List.mem_cons_of_mem a h)

/-- The seed is below a fold of `Max.max`. -/
theorem le_foldl_max_init (l : List ℚ) (x : ℚ) : x ≤ l.foldl Max.max x := by
  induction l generalizing x with
  | nil => exact le_refl x
  | cons a l ih =>
    simp only [List.foldl_cons]
    exact le_trans (le_max_left x a) (ih _)

/-- Every list element is below a fold of `Max.max`. -/
theorem le_foldl_max_of_mem {l : List ℚ} {y : ℚ} (h : y ∈ l) (x : ℚ) :
    y ≤ l.foldl Max.max x := by
  induction l generalizing x with
  | nil => cases h
  | cons a l ih =>
    simp only [List.foldl_cons]
    rcases List.mem_cons.mp h with rfl | h2
    · exact le_trans (le_max_right x y) (le_foldl_max_init l _)
    · exact ih h2 _

/-- A fold of `Max.max` is below any common upper bound of the seed and the
list. -/
theorem foldl_max_le {l : List ℚ} {x c : ℚ} (hx : x ≤ c) (hl : ∀ y ∈ l, y ≤ c) :
    l.foldl Max.max x ≤ c := by
  induction l generalizing x with
  | nil => exact hx
  | cons a l ih =>
    simp only [List.foldl_cons]
    exact ih (max_le hx (hl a (List.mem_cons_self a l)))
      fun y hy => hl y (List.mem_cons_of_mem a hy)

/-- Folding `acc + f i` over a list adds the sum of the mapped list to the
seed. -/
theorem foldl_add_eq {α : Type} (l : List α) (f : α → ℚ) (x : ℚ) :
    l.foldl (fun acc i => acc + f i) x = x + (l.map f).sum := by
  induction l generalizing x with
  | nil => simp
  | cons a l ih =>
    simp only [List.foldl_cons, List.map_cons, List.sum_cons]
    rw [ih, add_assoc]

/-! ### The max-norm program -/

/-- Unfolding the row worker's loop to a `Max.max` fold over the row's
absolute values. -/
theorem compute_row_max_loc_eq (n : Nat) (A : List (List ℚ)) (row : Nat) :
    MaxC.compute_row_max_loc n A row
      = ((List.range' 1 (n - 1)).map fun j => |mget A row j|).foldl Max.max
          |mget A row 0| := by
  unfold MaxC.compute_row_max_loc
  exact foldl_step_eq_max _ _ _

/-- For `n ≥ 1`, `range n` splits as `0` followed by `range' 1 (n-1)`. -/
theorem range_eq_cons_range' {n : Nat} (hn : 1 ≤ n) :
    List.range n = 0 :: List.range' 1 (n - 1) := by
  obtain ⟨n', rfl⟩ : ∃ n', n = n' + 1 := ⟨n - 1, by omega⟩
  rw [List.range_eq_range', List.range'_succ]
  rfl

/-- The row worker's local maximum is one of the row's absolute values. -/
theorem rowloc_mem (n : Nat) (A : List (List ℚ)) (row : Nat) (hn : 1 ≤ n) :
    MaxC.compute_row_max_loc n A row
      ∈ (List.range n).map fun j => |mget A row j| := by
  rw [compute_row_max_loc_eq, range_eq_cons_range' hn, List.map_cons]
  rcases foldl_max_eq_init_or_mem
      ((List.range' 1 (n - 1)).map fun j => |mget A row j|) |mget A row 0| with h | h
  · rw [h]; exact List.mem_cons_self _ _
  · exact List.mem_cons_of_mem _ h

/-- The row worker's local maximum bounds every absolute value of its row. -/
theorem rowloc_ub (n : Nat) (A : List (List ℚ)) (row j : Nat) (hj : j < n) :
    |mget A row j| ≤ MaxC.compute_row_max_loc n A row := by
  rw [compute_row_max_loc_eq]
  rcases Nat.eq_zero_or_pos j with rfl | hj1
  · exact le_foldl_max_init _ _
  · refine le_foldl_max_of_mem ?_ _
    exact List.mem_map_of_mem _ (List.mem_range'_1.mpr ⟨hj1, by omega⟩)

/-- Every absolute value of an entry is in `absEntries`. -/
theorem abs_mem_absEntries {m n i j : Nat} (A : List (List ℚ))
    (hi : i < m) (hj : j < n) : |mget A i j| ∈ absEntries m n A := by
  unfold absEntries
  exact List.mem_flatMap_of_mem (List.mem_range.mpr hi)
    (List.mem_map_of_mem _ (List.mem_range.mpr hj))

/-- Claim C1: for every matrix with at least one row and one column, the
parallel max-norm reduction `max` — row workers computing local absolute-value
maxima, combined into a shared accumulator seeded with `A[0][0]` and updated
under the lock only when the local value exceeds it — returns the maximum of
`|A[i][j]|` over all entries, for every order `order` in which the workers
perform their combine steps. -/
theorem C1_parallel_max_correct (m n : Nat) (A : List (List ℚ))
    (order : List Nat) (hm : 1 ≤ m) (hn : 1 ≤ n) (hA : MatrixWF m n A)
    (hord : order.Perm (List.range m)) :
    MaxC.max m n A order = maxAbsSpec m n A := by
  have hmax : MaxC.max m n A order
      = (order.map fun i => MaxC.compute_row_max_loc n A i).foldl Max.max
          (mget A 0 0) := by
    unfold MaxC.max MaxC.combine
    exact foldl_step_eq_max _ _ _
  have h0mem : 0 ∈ order := hord.mem_iff.mpr (List.mem_range.mpr hm)
  have hub : ∀ y ∈ absEntries m n A, y ≤ MaxC.max m n A order := by
    intro y hy
    rw [hmax]
    obtain ⟨i, hi, j, hj, rfl⟩ : ∃ i < m, ∃ j < n, |mget A i j| = y := by
      simpa [absEntries] using hy
    refine le_trans (rowloc_ub n A i j hj) ?_
    exact le_foldl_max_of_mem
      (List.mem_map_of_mem _ (hord.mem_iff.mpr (List.mem_range.mpr hi))) _
  have hf0 : MaxC.compute_row_max_loc n A 0 ≤ MaxC.max m n A order := by
    rw [hmax]
    exact le_foldl_max_of_mem (List.mem_map_of_mem _ h0mem) _
  refine le_antisymm ?_ ?_
  · rw [hmax]
    rcases foldl_max_eq_init_or_mem
        (order.map fun i => MaxC.compute_row_max_loc n A i) (mget A 0 0) with h | h
    · rw [h]
      refine le_trans (le_abs_self _) ?_
      exact le_foldl_max_init _ _
    · obtain ⟨i, hi, hfi⟩ := List.mem_map.mp h
      have him : i < m := List.mem_range.mp (hord.mem_iff.mp hi)
      obtain ⟨j, hj, hji⟩ := List.mem_map.mp (rowloc_mem n A i hn)
      rw [← hfi, ← hji]
      exact le_foldl_max_of_mem
        (abs_mem_absEntries A him (List.mem_range.mp hj)) _
  · refine foldl_max_le ?_ hub
    refine le_trans ?_ hf0
    exact rowloc_ub n A 0 0 hn

/-- Witness for C1 at the concrete 2×2 matrix `[[1,-7],[3,2]]` with the
workers combining in reversed order. -/
theorem C1_witness :
    MaxC.max 2 2 [[1, -7], [3, 2]] [1, 0] = maxAbsSpec 2 2 [[1, -7], [3, 2]] :=
  C1_parallel_max_correct 2 2 [[1, -7], [3, 2]] [1, 0] (by decide) (by decide)
    (by constructor <;> decide) (by decide)

/-- Claim C2 (refutation): `max_ref` compares `fabs(A[i][j]) > maxElem` but
assigns the raw `A[i][j]`, so on the 1×1 matrix `[[-5]]` it returns `-5`
although the maximum absolute value of the entries is `5`; on
`[[1,-7],[3,2]]` it returns `3` although the maximum absolute value is `7`
(the parallel `max` returns the correct values in both cases). -/
theorem C2_max_ref_bug_eval :
    MaxC.max_ref 1 1 [[-5]] = -5 ∧ maxAbsSpec 1 1 [[-5]] = 5 ∧
    MaxC.max 1 1 [[-5]] [0] = 5 ∧
    MaxC.max_ref 2 2 [[1, -7], [3, 2]] = 3 ∧
    maxAbsSpec 2 2 [[1, -7], [3, 2]] = 7 := by
  refine ⟨by decide, by decide, by decide, by decide, by decide⟩

/-! ### The dot-product programs -/

/-- `dotprod_pairs` under any order of the mutex-protected additions over a
permutation of the element indices equals the sequential reference sum. -/
theorem dotprod_pairs_perm (n : Nat) (a b : List ℚ) (order : List Nat)
    (hord : order.Perm (List.range n)) :
    PairsC.dotprod_pairs n a b order = dotprod_ref n a b := by
  have h1 : PairsC.dotprod_pairs n a b order
      = (order.map fun i => vget a i * vget b i).sum := by
    simpa [PairsC.dotprod_pairs, PairsC.compute_product] using
      foldl_add_eq order (fun i => vget a i * vget b i) 0
  have h2 : dotprod_ref n a b
      = ((List.range n).map fun i => vget a i * vget b i).sum := by
    simpa [dotprod_ref] using
      foldl_add_eq (List.range n) (fun i => vget a i * vget b i) 0
  rw [h1, h2]
  exact (hord.map _).sum_eq

/-- A block worker's sum is the sum of the products over its index range. -/
theorem compute_block_eq (a b : List ℚ) (s e : Nat) :
    BlocksC.compute_block a b s e
      = ((List.range' s (e - s)).map fun i => vget a i * vget b i).sum := by
  simpa [BlocksC.compute_block] using
    foldl_add_eq (List.range' s (e - s)) (fun i => vget a i * vget b i) 0

/-- Summing `nb` consecutive blocks of width `k` of `f` sums `f` over
`range (nb * k)`. -/
theorem sum_blocks (f : Nat → ℚ) (k nb : Nat) :
    ((List.range nb).map fun i => ((List.range' (i * k) k).map f).sum).sum
      = ((List.range (nb * k)).map f).sum := by
  induction nb with
  | zero => simp
  | succ nb ih =>
    rw [List.range_succ, List.map_append, List.sum_append, ih]
    have hsplit : List.range ((nb + 1) * k)
        = List.range (nb * k) ++ List.range' (nb * k) k := by
      have h := List.range'_append_1 0 (nb * k) k
      rw [Nat.zero_add] at h
      rw [List.range_eq_range', List.range_eq_range', h]
      congr 1
      rw [Nat.succ_mul]
      omega
    rw [hsplit, List.map_append, List.sum_append]
    simp

/-- `dotprod_blocks` under any order of the mutex-protected additions over a
permutation of the `n / k` block indices sums the products over the first
`(n / k) * k` indices. -/
theorem dotprod_blocks_perm (n k : Nat) (a b : List ℚ) (order : List Nat)
    (hord : order.Perm (List.range (n / k))) :
    BlocksC.dotprod_blocks n k a b order
      = ((List.range (n / k * k)).map fun i => vget a i * vget b i).sum := by
  have h1 : BlocksC.dotprod_blocks n k a b order
      = (order.map fun i => BlocksC.compute_block a b (i * k) ((i + 1) * k)).sum := by
    simpa [BlocksC.dotprod_blocks] using
      foldl_add_eq order (fun i => BlocksC.compute_block a b (i * k) ((i + 1) * k)) 0
  have h3 : ∀ i : Nat, BlocksC.compute_block a b (i * k) ((i + 1) * k)
      = ((List.range' (i * k) k).map fun t => vget a t * vget b t).sum := by
    intro i
    rw [compute_block_eq]
    have h4 : (i + 1) * k - i * k = k := by
      rw [Nat.succ_mul]; omega
    rw [h4]
  rw [h1, (hord.map _).sum_eq]
  simp only [h3]
  exact sum_blocks _ k (n / k)

/-- Claim C3 (counterexample): in the per-element program's `main`, the
static counter inside `initArray` persists between the two calls, so
`b = [10..19]` is different from `a = [0..9]` and the dot product is 735,
not 285, already at the sequential reference and at the parallel result in
program order. -/
theorem C3_counterexample :
    PairsC.bMain ≠ PairsC.aMain ∧
    dotprod_ref 10 PairsC.aMain PairsC.bMain ≠ 285 ∧
    PairsC.dotprod_pairs 10 PairsC.aMain PairsC.bMain (List.range 10) ≠ 285 := by
  refine ⟨?_, ?_, ?_⟩ <;>
    norm_num [PairsC.aMain, PairsC.bMain, PairsC.dotprod_pairs,
      PairsC.compute_product, dotprod_ref, initArray, List.range_succ, vget]

/-- Claim C3 (amended): in the per-element program, `a = [0..9]` but the
static counter makes `b = [10..19]`; the sequential reference and the
parallel pairwise dot product (under every order of the workers' additions)
both equal 735, and the program prints OK. -/
theorem C3_pairs_main_amended (order : List Nat)
    (hord : order.Perm (List.range 10)) :
    PairsC.aMain = [0, 1, 2, 3, 4, 5, 6, 7, 8, 9] ∧
    PairsC.bMain = [10, 11, 12, 13, 14, 15, 16, 17, 18, 19] ∧
    dotprod_ref 10 PairsC.aMain PairsC.bMain = 735 ∧
    PairsC.dotprod_pairs 10 PairsC.aMain PairsC.bMain order = 735 ∧
    (PairsC.main_tail (dotprod_ref 10 PairsC.aMain PairsC.bMain)
        (PairsC.dotprod_pairs 10 PairsC.aMain PairsC.bMain order)).1
      = ["Résultat correct : OK"] := by
  have hp := dotprod_pairs_perm 10 PairsC.aMain PairsC.bMain order hord
  have hrefv : dotprod_ref 10 PairsC.aMain PairsC.bMain = 735 := by
    norm_num [dotprod_ref, PairsC.aMain, PairsC.bMain, initArray,
      List.range_succ, vget]
  refine ⟨?_, ?_, hrefv, by rw [hp, hrefv], ?_⟩
  · norm_num [PairsC.aMain, initArray, List.range_succ]
  · norm_num [PairsC.bMain, initArray, List.range_succ]
  · rw [hp, hrefv]
    norm_num [PairsC.main_tail, isClose, PairsC.threshold]

/-- Witness for C3 (amended) with the workers combining in program order. -/
theorem C3_witness :
    PairsC.aMain = [0, 1, 2, 3, 4, 5, 6, 7, 8, 9] ∧
    PairsC.bMain = [10, 11, 12, 13, 14, 15, 16, 17, 18, 19] ∧
    dotprod_ref 10 PairsC.aMain PairsC.bMain = 735 ∧
    PairsC.dotprod_pairs 10 PairsC.aMain PairsC.bMain (List.range 10) = 735 ∧
    (PairsC.main_tail (dotprod_ref 10 PairsC.aMain PairsC.bMain)
        (PairsC.dotprod_pairs 10 PairsC.aMain PairsC.bMain (List.range 10))).1
      = ["Résultat correct : OK"] :=
  C3_pairs_main_amended (List.range 10) (List.Perm.refl _)

/-- Claim C4 (counterexample): in the block program's `main` (`n = 9`,
`k = 3`), the static counter inside `initArray` persists between the two
calls, so `b = [9..17]` differs from `a = [0..8]` and `dotprod_blocks`
returns 528, not 204. -/
theorem C4_counterexample :
    BlocksC.bMain ≠ BlocksC.aMain ∧
    BlocksC.dotprod_blocks 9 3 BlocksC.aMain BlocksC.bMain (List.range 3) ≠ 204 := by
  constructor <;>
    norm_num [BlocksC.aMain, BlocksC.bMain, BlocksC.dotprod_blocks,
      BlocksC.compute_block, initArray, List.range_succ, List.range',
      vget]

/-- Claim C4 (amended): in the block program with `n = 9` and `k = 3`,
`a = [0..8]` but the static counter makes `b = [9..17]`; `dotprod_blocks`
returns 528 under every order of the three block workers' additions,
matching the sequential reference. -/
theorem C4_blocks_main_amended (order : List Nat)
    (hord : order.Perm (List.range 3)) :
    BlocksC.aMain = [0, 1, 2, 3, 4, 5, 6, 7, 8] ∧
    BlocksC.bMain = [9, 10, 11, 12, 13, 14, 15, 16, 17] ∧
    dotprod_ref 9 BlocksC.aMain BlocksC.bMain = 528 ∧
    BlocksC.dotprod_blocks 9 3 BlocksC.aMain BlocksC.bMain order = 528 := by
  have hb : (9 : Nat) / 3 = 3 := by norm_num
  have hp := dotprod_blocks_perm 9 3 BlocksC.aMain BlocksC.bMain order (by rwa [hb])
  rw [hb] at hp
  refine ⟨?_, ?_, ?_, ?_⟩
  · norm_num [BlocksC.aMain, initArray, List.range_succ]
  · norm_num [BlocksC.bMain, initArray, List.range_succ]
  · norm_num [dotprod_ref, BlocksC.aMain, BlocksC.bMain, initArray,
      List.range_succ, vget]
  · rw [hp]
    norm_num [BlocksC.aMain, BlocksC.bMain, initArray, List.range_succ, vget]

/-- Witness for C4 (amended) with the block workers in program order. -/
theorem C4_witness :
    BlocksC.aMain = [0, 1, 2, 3, 4, 5, 6, 7, 8] ∧
    BlocksC.bMain = [9, 10, 11, 12, 13, 14, 15, 16, 17] ∧
    dotprod_ref 9 BlocksC.aMain BlocksC.bMain = 528 ∧
    BlocksC.dotprod_blocks 9 3 BlocksC.aMain BlocksC.bMain (List.range 3) = 528 :=
  C4_blocks_main_amended (List.range 3) (List.Perm.refl _)

/-- Claim C5: under exact arithmetic, for equal-length vectors, the
per-element parallel dot product and the block parallel dot product with any
block size `k ≥ 1` evenly dividing `n` both equal the sequential sum
`Σ a[i]·b[i]`, for every order of the workers' mutex-protected additions. -/
theorem C5_pairs_blocks_agree (n k : Nat) (a b : List ℚ) (ord1 ord2 : List Nat)
    (ha : a.length = n) (hb : b.length = n) (hk : 1 ≤ k) (hdvd : k ∣ n)
    (h1 : ord1.Perm (List.range n)) (h2 : ord2.Perm (List.range (n / k))) :
    PairsC.dotprod_pairs n a b ord1 = dotprod_ref n a b ∧
    BlocksC.dotprod_blocks n k a b ord2 = dotprod_ref n a b := by
  refine ⟨dotprod_pairs_perm n a b ord1 h1, ?_⟩
  rw [dotprod_blocks_perm n k a b ord2 h2, Nat.div_mul_cancel hdvd]
  symm
  simpa [dotprod_ref] using
    foldl_add_eq (List.range n) (fun i => vget a i * vget b i) 0

/-- Witness for C5 with `n = 4`, `k = 2`, both orders reversed. -/
theorem C5_witness :
    PairsC.dotprod_pairs 4 [1, 2, 3, 4] [5, 6, 7, 8] [3, 2, 1, 0]
        = dotprod_ref 4 [1, 2, 3, 4] [5, 6, 7, 8] ∧
    BlocksC.dotprod_blocks 4 2 [1, 2, 3, 4] [5, 6, 7, 8] [1, 0]
        = dotprod_ref 4 [1, 2, 3, 4] [5, 6, 7, 8] :=
  C5_pairs_blocks_agree 4 2 [1, 2, 3, 4] [5, 6, 7, 8] [3, 2, 1, 0] [1, 0]
    (by decide) (by decide) (by decide) (by decide) (by decide) (by decide)

/-- Claim C9: for every `n` and block size `k ≥ 1` that does not evenly
divide `n`, `dotprod_blocks` silently computes the sum of `a[i]·b[i]` only
over `i < ⌊n/k⌋·k` (the `n mod k` trailing elements are ignored), under
every order of the workers; in particular when `k > n` there are no workers
and the result is 0; the model is total, so no rejection or error occurs. -/
theorem C9_blocks_truncation (n k : Nat) (a b : List ℚ) (order : List Nat)
    (hk : 1 ≤ k) (hnd : ¬ k ∣ n) (hord : order.Perm (List.range (n / k))) :
    BlocksC.dotprod_blocks n k a b order
      = ((List.range (n / k * k)).map fun i => vget a i * vget b i).sum ∧
    (n < k → BlocksC.dotprod_blocks n k a b order = 0) := by
  refine ⟨dotprod_blocks_perm n k a b order hord, fun hlt => ?_⟩
  rw [dotprod_blocks_perm n k a b order hord, Nat.div_eq_of_lt hlt]
  simp

/-- Witness for C9 at `n = 10`, `k = 3` (one trailing element dropped). -/
theorem C9_witness :
    BlocksC.dotprod_blocks 10 3 PairsC.aMain PairsC.aMain (List.range (10 / 3))
        = ((List.range (10 / 3 * 3)).map
            fun i => vget PairsC.aMain i * vget PairsC.aMain i).sum ∧
    (10 < 3 → BlocksC.dotprod_blocks 10 3 PairsC.aMain PairsC.aMain
        (List.range (10 / 3)) = 0) :=
  C9_blocks_truncation 10 3 PairsC.aMain PairsC.aMain (List.range (10 / 3))
    (by decide) (by decide) (List.Perm.refl _)

/-! ### The Frobenius program -/

/-- `frobenius_ref_sum` as a sum of row sums. -/
theorem frobenius_ref_sum_eq (m n : Nat) (A : List (List ℚ)) :
    FrobC.frobenius_ref_sum m n A
      = ((List.range m).map
          fun i => ((List.range n).map fun j => mget A i j * mget A i j).sum).sum := by
  unfold FrobC.frobenius_ref_sum
  have hstep : ∀ (acc : ℚ), ∀ i ∈ List.range m,
      (List.range n).foldl (fun a2 j => a2 + mget A i j * mget A i j) acc
        = acc + ((List.range n).map fun j => mget A i j * mget A i j).sum := by
    intro acc i _
    exact foldl_add_eq (List.range n) (fun j => mget A i j * mget A i j) acc
  rw [List.foldl_ext _ _ 0 hstep]
  simpa using foldl_add_eq (List.range m)
    (fun i => ((List.range n).map fun j => mget A i j * mget A i j).sum) 0

/-- The parallel Frobenius accumulator under any combine order over a
permutation of the rows equals the sequential accumulator. -/
theorem frobenius_acc_perm (m n : Nat) (A : List (List ℚ)) (order : List Nat)
    (hord : order.Perm (List.range m)) :
    FrobC.frobenius_acc m n A order = FrobC.frobenius_ref_sum m n A := by
  have h1 : FrobC.frobenius_acc m n A order
      = (order.map fun i => FrobC.compute_row_sum n A i).sum := by
    simpa [FrobC.frobenius_acc] using
      foldl_add_eq order (fun i => FrobC.compute_row_sum n A i) 0
  have h2 : ∀ i : Nat, FrobC.compute_row_sum n A i
      = ((List.range n).map fun j => mget A i j * mget A i j).sum := by
    intro i
    simpa [FrobC.compute_row_sum] using
      foldl_add_eq (List.range n) (fun j => mget A i j * mget A i j) 0
  rw [h1, (hord.map _).sum_eq, frobenius_ref_sum_eq]
  simp only [h2]

/-- Claim C6: for every matrix with at least one row and one column, under
exact arithmetic, the parallel `frobenius` — per-row sum-of-squares partial
results added to a shared accumulator initialized to 0, square-rooted after
the join — equals the sequential `frobenius_ref`, for every order in which
the row workers add their partial sums (the accumulated sums are equal, so
the square roots are too). -/
theorem C6_frobenius_refinement (m n : Nat) (A : List (List ℚ))
    (order : List Nat) (hm : 1 ≤ m) (hn : 1 ≤ n) (hA : MatrixWF m n A)
    (hord : order.Perm (List.range m)) :
    FrobC.frobenius_acc m n A order = FrobC.frobenius_ref_sum m n A ∧
    Real.sqrt ((FrobC.frobenius_acc m n A order : ℚ) : ℝ)
      = Real.sqrt ((FrobC.frobenius_ref_sum m n A : ℚ) : ℝ) := by
  have h := frobenius_acc_perm m n A order hord
  exact ⟨h, by rw [h]⟩

/-- Witness for C6 at the 2×2 matrix `[[1,-7],[3,2]]`, workers combining in
reversed order. -/
theorem C6_witness :
    FrobC.frobenius_acc 2 2 [[1, -7], [3, 2]] [1, 0]
      = FrobC.frobenius_ref_sum 2 2 [[1, -7], [3, 2]] ∧
    Real.sqrt ((FrobC.frobenius_acc 2 2 [[1, -7], [3, 2]] [1, 0] : ℚ) : ℝ)
      = Real.sqrt ((FrobC.frobenius_ref_sum 2 2 [[1, -7], [3, 2]] : ℚ) : ℝ) :=
  C6_frobenius_refinement 2 2 [[1, -7], [3, 2]] [1, 0] (by decide) (by decide)
    (by constructor <;> decide) (by decide)

/-! ### Tolerance policy and exit codes -/

/-- Claim C7: the validation comparison is
`isClose(a, b, threshold) = |a − b| < threshold` (strict) with threshold
`0.0001 = 1/10000` in the dot-product and Frobenius programs, whereas the
max-norm program compares `ref == res` with exact equality and no
tolerance. -/
theorem C7_tolerance_policy :
    (∀ a b t : ℚ, isClose a b t = true ↔ |a - b| < t) ∧
    FrobC.threshold = 1 / 10000 ∧
    PairsC.threshold = 1 / 10000 ∧
    BlocksC.threshold = 1 / 10000 ∧
    (∀ r s : ℚ, MaxC.main_check r s = true ↔ r = s) := by
  refine ⟨fun a b t => ?_, rfl, rfl, rfl, fun r s => ?_⟩
  · simp [isClose]
  · simp [MaxC.main_check]

/-- Claim C8: every program's `main` returns exit code 0 whatever the
computed reference and parallel results are — in the OK branch and in the
mismatch branch alike; no failure is signaled via the exit status. -/
theorem C8_exit_code_always_zero (ref res : ℚ) :
    (MaxC.main_tail ref res).2 = 0 ∧ (FrobC.main_tail ref res).2 = 0 ∧
    (PairsC.main_tail ref res).2 = 0 ∧ (BlocksC.main_tail ref res).2 = 0 :=
  ⟨rfl, rfl, rfl, rfl⟩

/-! ### Bounds safety of the checked embedding -/

/-- A fold whose step preserves `isSome` stays `some` from a `some` seed. -/
theorem foldl_isSome_invariant {α β : Type} (l : List α)
    (step : Option β → α → Option β) (init : Option β)
    (h0 : init.isSome = true)
    (hstep : ∀ acc x, x ∈ l → acc.isSome = true → (step acc x).isSome = true) :
    (l.foldl step init).isSome = true := by
  induction l generalizing init with
  | nil => exact h0
  | cons a l ih =>
    exact ih (step init a) (hstep init a (List.mem_cons_self a l) h0)
      fun acc x hx => hstep acc x (List.mem_cons_of_mem a hx)

/-- In-bounds checked matrix reads succeed. -/
theorem mgetOpt_isSome {m n : Nat} {A : List (List ℚ)} (hA : MatrixWF m n A)
    {i j : Nat} (hi : i < m) (hj : j < n) : (mgetOpt A i j).isSome = true := by
  obtain ⟨hlen, hrow⟩ := hA
  have hi' : i < A.length := by omega
  have hjn : j < A[i].length := by
    rw [hrow A[i] (List.getElem_mem hi')]; omega
  unfold mgetOpt
  rw [List.getElem?_eq_getElem hi']
  simpa using List.getElem?_eq_getElem hjn ▸ rfl

/-- In-bounds checked vector reads succeed. -/
theorem vgetOpt_isSome {a : List ℚ} {i : Nat} (h : i < a.length) :
    (vgetOpt a i).isSome = true := by
  unfold vgetOpt
  rw [List.getElem?_eq_getElem h]
  rfl

/-- Claim C10: under the precondition that the matrix is a genuine `m × n`
matrix with `m, n ≥ 1`, and that the block range `[s, e)` lies within both
vectors, every array access performed by `compute_row_max`, `max_ref`,
`compute_row_sum` and `compute_block` is in bounds — including the unguarded
initial reads of `A[0][0]` and `A[row][0]` — so the Option-returning checked
embedding never reaches its out-of-bounds (`none`) branch. -/
theorem C10_bounds_safety (m n row s e : Nat) (A : List (List ℚ))
    (a b : List ℚ) (hm : 1 ≤ m) (hn : 1 ≤ n) (hrow : row < m)
    (hA : MatrixWF m n A) (hea : e ≤ a.length) (heb : e ≤ b.length) :
    (Checked.compute_row_max_loc n A row).isSome = true ∧
    (Checked.max_ref m n A).isSome = true ∧
    (Checked.compute_row_sum n A row).isSome = true ∧
    (Checked.compute_block a b s e).isSome = true := by
  refine ⟨?_, ?_, ?_, ?_⟩
  · unfold Checked.compute_row_max_loc
    refine foldl_isSome_invariant _ _ _ ?_ ?_
    · rw [Option.isSome_map']
      exact mgetOpt_isSome hA hrow hn
    · intro acc j hj hacc
      obtain ⟨v, rfl⟩ := Option.isSome_iff_exists.mp hacc
      obtain ⟨hj1, hj2⟩ := List.mem_range'_1.mp hj
      simp only [Option.some_bind, Option.isSome_map']
      exact mgetOpt_isSome hA hrow (by omega)
  · unfold Checked.max_ref
    refine foldl_isSome_invariant _ _ _ (mgetOpt_isSome hA hm hn) ?_
    intro acc i hi hacc
    refine foldl_isSome_invariant _ _ _ hacc ?_
    intro acc2 j hj hacc2
    obtain ⟨v, rfl⟩ := Option.isSome_iff_exists.mp hacc2
    simp only [Option.some_bind, Option.isSome_map']
    exact mgetOpt_isSome hA (List.mem_range.mp hi) (List.mem_range.mp hj)
  · unfold Checked.compute_row_sum
    refine foldl_isSome_invariant _ _ _ rfl ?_
    intro acc j hj hacc
    obtain ⟨v, rfl⟩ := Option.isSome_iff_exists.mp hacc
    simp only [Option.some_bind, Option.isSome_map']
    exact mgetOpt_isSome hA hrow (List.mem_range.mp hj)
  · unfold Checked.compute_block
    refine foldl_isSome_invariant _ _ _ rfl ?_
    intro acc i hi hacc
    obtain ⟨v, rfl⟩ := Option.isSome_iff_exists.mp hacc
    obtain ⟨hi1, hi2⟩ := List.mem_range'_1.mp hi
    have hie : i < e := by omega
    obtain ⟨x, hx⟩ :=
      Option.isSome_iff_exists.mp (vgetOpt_isSome (a := a) (i := i) (by omega))
    rw [Option.some_bind, hx, Option.some_bind, Option.isSome_map']
    exact vgetOpt_isSome (a := b) (i := i) (by omega)

/-- Witness for C10 at a concrete 2×2 matrix, row 1, vectors of length 3 and
block `[1, 3)`. -/
theorem C10_witness :
    (Checked.compute_row_max_loc 2 [[1, -7], [3, 2]] 1).isSome = true ∧
    (Checked.max_ref 2 2 [[1, -7], [3, 2]]).isSome = true ∧
    (Checked.compute_row_sum 2 [[1, -7], [3, 2]] 1).isSome = true ∧
    (Checked.compute_block [1, 2, 3] [4, 5, 6] 1 3).isSome = true :=
  C10_bounds_safety 2 2 1 1 3 [[1, -7], [3, 2]] [1, 2, 3] [4, 5, 6]
    (by decide) (by decide) (by decide) (by constructor <;> decide)
    (by decide) (by decide)
